import Mathlib

/-!
# Verification of the doby container format and streaming pipeline

Shallow embedding of the repository's core (src/crypto.rs, src/lib.rs,
src/main.rs, src/cli.rs) into Lean 4, with theorems settling the claims
about the container layout, the parameters codec, the chunked
encrypt/decrypt pipelines and the mode selector.

Bytes are modelled as `Nat` (well-formedness `< 256` carried as
hypotheses where it matters).  Readers are modelled as `List Nat`: a
`read` into a buffer of free space `k` returns the first `min k len`
bytes, the model of a slice reader / a buffered reader that delivers
everything it has.  The stream ciphers (AES-CTR / XChaCha20 keystreams)
and the keyed hash (HMAC-Blake2b) are modelled abstractly: a keystream
is an arbitrary function `Nat → Nat` (byte at each stream position,
XORed in), a MAC is an arbitrary function from the absorbed transcript
to a 64-byte tag (`HASH_LEN = 64` in src/crypto.rs).  All pipeline
theorems hold for every choice of these primitives, hence for the real
ones.
-/

namespace Doby

/-- src/crypto.rs: `pub const SALT_LEN: usize = 64;` -/
def SALT_LEN : Nat := 64

/-- src/crypto.rs: `pub const HASH_LEN: usize = 64;` (Blake2b output length,
the HMAC tag size). -/
def HASH_LEN : Nat := 64

/-- src/lib.rs: `pub const MAGIC_BYTES: &[u8; 4] = b"DOBY";` -/
def MAGIC_BYTES : List Nat := [0x44, 0x4F, 0x42, 0x59]

/-- src/crypto.rs `ArgonParams`: `t_cost: u32, m_cost: u32, parallelism: u8`. -/
structure ArgonParams where
  t_cost : Nat
  m_cost : Nat
  parallelism : Nat
  deriving DecidableEq, Repr

/-- src/crypto.rs `CipherAlgorithm`: `AesCtr = 0, XChaCha20 = 1` (`repr(u8)`,
`TryFromPrimitive`). -/
inductive CipherAlgorithm where
  | AesCtr
  | XChaCha20
  deriving DecidableEq, Repr

/-- The `u8` discriminant of a `CipherAlgorithm` (`self.cipher as u8`). -/
def CipherAlgorithm.toByte : CipherAlgorithm → Nat
  | .AesCtr => 0
  | .XChaCha20 => 1

/-- `CipherAlgorithm::try_from` on a byte (`TryFromPrimitive`): only 0 and 1
are members of the enumeration. -/
def CipherAlgorithm.tryFrom (b : Nat) : Option CipherAlgorithm :=
  if b = 0 then some .AesCtr
  else if b = 1 then some .XChaCha20
  else none

/-- src/crypto.rs `CipherAlgorithm::get_nonce_size`:
16 for AES-CTR, 24 for XChaCha20. -/
def CipherAlgorithm.get_nonce_size : CipherAlgorithm → Nat
  | .AesCtr => 16
  | .XChaCha20 => 24

/-- src/crypto.rs `EncryptionParams`: salt (64 bytes), Argon2 costs, cipher. -/
structure EncryptionParams where
  salt : List Nat
  argon2 : ArgonParams
  cipher : CipherAlgorithm
  deriving DecidableEq, Repr

/-- src/crypto.rs: `pub const LEN: usize = SALT_LEN + 4*2 + 2;` -/
def EncryptionParams.LEN : Nat := SALT_LEN + 4 * 2 + 2

/-- `u32::to_be_bytes`: big-endian 4-byte encoding. -/
def be32 (n : Nat) : List Nat :=
  [n / 2 ^ 24 % 256, n / 2 ^ 16 % 256, n / 2 ^ 8 % 256, n % 256]

/-- `u32::from_be_bytes` on a 4-byte list. -/
def fromBe32 (bs : List Nat) : Nat :=
  match bs with
  | [a, b, c, d] => ((a * 256 + b) * 256 + c) * 256 + d
  | _ => 0

/-- src/crypto.rs `EncryptionParams::write`: salt, then `t_cost` and `m_cost`
as big-endian `u32`, then `parallelism` as a single `u8`
(`u8::to_be_bytes` is one byte), then the cipher id byte. -/
def EncryptionParams.write (p : EncryptionParams) : List Nat :=
  p.salt ++ be32 p.argon2.t_cost ++ be32 p.argon2.m_cost
    ++ [p.argon2.parallelism] ++ [p.cipher.toByte]

/-- `Read::read_exact` on a list reader: exactly `k` bytes or a hard I/O
error (`ErrorKind::UnexpectedEof`), modelled as `Except Unit`. -/
def readExact (k : Nat) (s : List Nat) : Except Unit (List Nat × List Nat) :=
  if k ≤ s.length then .ok (s.take k, s.drop k) else .error ()

/-- src/crypto.rs `EncryptionParams::read`: five exact-length reads
(64-byte salt, 4-byte `t_cost`, 4-byte `m_cost`, 1-byte `parallelism`,
1-byte cipher id), then `CipherAlgorithm::try_from` on the cipher byte;
an unknown cipher id yields `Ok(None)`, a short read a hard I/O error.
No other check is performed.  Returns the parsed result together with
the unconsumed rest of the stream. -/
def EncryptionParams.read (s : List Nat) :
    Except Unit (Option EncryptionParams × List Nat) := do
  let (salt, s) ← readExact SALT_LEN s
  let (t_cost, s) ← readExact 4 s
  let (m_cost, s) ← readExact 4 s
  let (parallelism, s) ← readExact 1 s
  let (cipher_buff, s) ← readExact 1 s
  match CipherAlgorithm.tryFrom (cipher_buff.headI) with
  | some cipher =>
      .ok (some { salt := salt,
                  argon2 := { t_cost := fromBe32 t_cost,
                              m_cost := fromBe32 m_cost,
                              parallelism := parallelism.headI },
                  cipher := cipher }, s)
  | none => .ok (none, s)

/-- Modelled from the spec: the cost tuples accepted by the KDF
constructor (`argon2::Params::new`, an external crate, source not in
this repository).  The spec states the invariant "all three must be
non-zero and within the underlying KDF's accepted range"; Argon2's
minimum memory cost is 8 KiB and parallelism is a `u8`, so validity is
modelled as `t_cost ≥ 1`, `m_cost ≥ 8`, `1 ≤ parallelism ≤ 255`. -/
def validCosts (a : ArgonParams) : Prop :=
  1 ≤ a.t_cost ∧ 8 ≤ a.m_cost ∧ 1 ≤ a.parallelism ∧ a.parallelism ≤ 255

instance (a : ArgonParams) : Decidable (validCosts a) := by
  unfold validCosts; infer_instance

/-- Well-formedness of an `EncryptionParams` value as produced by the Rust
types: the salt is 64 bytes, each cost fits its integer type. -/
def EncryptionParams.Wf (p : EncryptionParams) : Prop :=
  p.salt.length = SALT_LEN ∧ p.argon2.t_cost < 2 ^ 32 ∧
    p.argon2.m_cost < 2 ^ 32 ∧ p.argon2.parallelism < 2 ^ 8

instance (p : EncryptionParams) : Decidable p.Wf := by
  unfold EncryptionParams.Wf; infer_instance

/-- The abstract cryptographic primitives a `DobyCipher` is built from
(src/crypto.rs `DobyCipher::new` derives them from the password and the
parameters via Argon2id + HKDF): `ks i` is the keystream byte the stream
cipher XORs into position `i` (AES-CTR / XChaCha20 are stream ciphers:
`apply_keystream` XORs a position-indexed keystream in place), and `mac`
maps the absorbed transcript to the HMAC-Blake2b tag, which is
`HASH_LEN = 64` bytes long. -/
structure Crypto where
  ks : Nat → Nat
  mac : List Nat → List Nat
  mac_len : ∀ t, (mac t).length = HASH_LEN

/-- `apply_keystream` on a buffer: XOR the keystream bytes starting at
stream position `p` into the buffer. -/
def ksApply (ks : Nat → Nat) (p : Nat) : List Nat → List Nat
  | [] => []
  | b :: bs => (b ^^^ ks p) :: ksApply ks (p + 1) bs

/-- src/crypto.rs `DobyCipher`: the stream-cipher state (here: the
keystream function plus the current position), the running HMAC (here:
the transcript of bytes absorbed so far — `new` seeds it with the
serialized parameters), and the look-behind `buffer`. -/
structure DobyCipher where
  crypto : Crypto
  pos : Nat
  transcript : List Nat
  buffer : List Nat

/-- src/crypto.rs `DobyCipher::new`: fresh cipher at position 0, HMAC
updated with the `EncryptionParams::LEN` serialized parameter bytes
(`params.write(&mut encoded_params)`; the magic bytes are not absorbed),
empty buffer. -/
def DobyCipher.new (c : Crypto) (params : EncryptionParams) : DobyCipher :=
  { crypto := c, pos := 0, transcript := params.write, buffer := [] }

/-- src/crypto.rs `DobyCipher::encrypt_chunk`: apply the keystream in
place, update the HMAC with the resulting ciphertext, hand the
ciphertext to the writer (returned here). -/
def DobyCipher.encrypt_chunk (st : DobyCipher) (buff : List Nat) :
    DobyCipher × List Nat :=
  let ct := ksApply st.crypto.ks st.pos buff
  ({ st with pos := st.pos + buff.length, transcript := st.transcript ++ ct }, ct)

/-- src/crypto.rs `DobyCipher::write_hmac`: finalize the HMAC and write
the tag. -/
def DobyCipher.write_hmac (st : DobyCipher) : List Nat :=
  st.crypto.mac st.transcript

/-- src/crypto.rs `DobyCipher::decrypt_chunk` with a working buffer of
size `block` and the reader modelled as a list: the residual `buffer`
(length `r`) is copied to the front of the working buffer, a read fills
at most the remaining `block - r` slots (`m` bytes), then
`n = r + m - HASH_LEN` if `r + m ≥ HASH_LEN` (residual cleared) else
`n = 0` (residual kept), the residual is extended with
`work[n .. r+m]`, the HMAC absorbs the first `n` ciphertext bytes and
the keystream decrypts them in place.  Returns (new state, rest of the
reader, `n`, the `n` decrypted bytes). -/
def DobyCipher.decrypt_chunk (st : DobyCipher) (input : List Nat) (block : Nat) :
    DobyCipher × List Nat × Nat × List Nat :=
  let r := st.buffer.length
  let readBytes := input.take (block - r)
  let m := readBytes.length
  let work := st.buffer ++ readBytes
  let n := if HASH_LEN ≤ r + m then r + m - HASH_LEN else 0
  let newBuffer :=
    if HASH_LEN ≤ r + m then work.drop n else st.buffer ++ work.take (r + m)
  let ct := work.take n
  ({ st with pos := st.pos + n, transcript := st.transcript ++ ct,
             buffer := newBuffer },
   input.drop m, n, ksApply st.crypto.ks st.pos ct)

/-- src/crypto.rs `DobyCipher::verify_hmac`: finalize the HMAC and
compare (in constant time, via `hmac.verify`) against the residual
buffer; functionally this is equality of the tag with the buffer. -/
def DobyCipher.verify_hmac (st : DobyCipher) : Bool :=
  st.crypto.mac st.transcript == st.buffer

/-- A `decrypt_chunk` call that returns `n ≠ 0` makes progress: the
unread input plus the residual shrink strictly (the termination measure
of the decrypt loop). -/
theorem decrypt_chunk_progress (st : DobyCipher) (input : List Nat) (block : Nat)
    (h : (st.decrypt_chunk input block).2.2.1 ≠ 0) :
    (st.decrypt_chunk input block).2.1.length +
      (st.decrypt_chunk input block).1.buffer.length <
        input.length + st.buffer.length := by
  simp only [DobyCipher.decrypt_chunk, List.length_take, List.length_drop,
    List.length_append] at h ⊢
  split at h
  case isTrue hge =>
    simp only [if_pos hge]
    have hmin : min (block - st.buffer.length) input.length ≤ input.length :=
      Nat.min_le_right _ _
    simp only [List.length_drop, List.length_append, List.length_take]
    omega
  case isFalse => exact absurd rfl h

/-- src/lib.rs `encrypt`, inner loop: `n = reader.read(&mut buff)`; stop
on `n == 0`, otherwise `encrypt_chunk` the first `n` bytes and repeat.
Returns the final cipher state and the emitted ciphertext. -/
def encryptLoop (st : DobyCipher) (input : List Nat) (block : Nat) :
    DobyCipher × List Nat :=
  let n := min block input.length
  if h : n = 0 then (st, [])
  else
    let step := st.encrypt_chunk (input.take n)
    let next := encryptLoop step.1 (input.drop n) block
    (next.1, step.2 ++ next.2)
  termination_by input.length
  decreasing_by simp only [List.length_drop]; omega

/-- src/lib.rs `encrypt`: write the magic bytes and the serialized
parameters, then (when carry-over bytes from magic peeking are present)
top the carry-over up with one read and encrypt it as the first chunk —
skipping the main loop if that first top-up read returned 0 — then run
the chunk loop to end of input, and finally append the HMAC tag. -/
def encrypt (c : Crypto) (params : EncryptionParams) (input : List Nat)
    (block : Nat) (already_read : Option (List Nat)) : List Nat :=
  let st := DobyCipher.new c params
  let first :
      DobyCipher × List Nat × Nat × List Nat :=
    match already_read with
    | none => (st, [], 1, input)
    | some ar =>
        let readBytes := input.take (block - ar.length)
        let step := st.encrypt_chunk (ar ++ readBytes)
        (step.1, step.2, readBytes.length, input.drop readBytes.length)
  let looped :=
    if first.2.2.1 ≠ 0 then encryptLoop first.1 first.2.2.2 block
    else (first.1, [])
  MAGIC_BYTES ++ params.write ++ first.2.1 ++ looped.2 ++ looped.1.write_hmac

/-- src/lib.rs `decrypt`, inner loop: `n = cipher.decrypt_chunk(...)`;
stop on `n == 0`, otherwise emit the `n` decrypted bytes and repeat.
Returns the final cipher state and the emitted plaintext. -/
def decryptLoop (st : DobyCipher) (input : List Nat) (block : Nat) :
    DobyCipher × List Nat :=
  if h : (st.decrypt_chunk input block).2.2.1 = 0 then
    ((st.decrypt_chunk input block).1, [])
  else
    let next := decryptLoop (st.decrypt_chunk input block).1
      (st.decrypt_chunk input block).2.1 block
    (next.1, (st.decrypt_chunk input block).2.2.2 ++ next.2)
  termination_by input.length + st.buffer.length
  decreasing_by exact decrypt_chunk_progress st input block h

/-- src/lib.rs `decrypt`: run the chunk loop on a reader positioned
after the header, then `verify_hmac` against the residual.  Returns the
written plaintext and the verification verdict. -/
def decrypt (st : DobyCipher) (input : List Nat) (block : Nat) :
    List Nat × Bool :=
  let res := decryptLoop st input block
  (res.2, res.1.verify_hmac)

/-! ### Keystream lemmas -/

theorem ksApply_length (ks : Nat → Nat) (p : Nat) (l : List Nat) :
    (ksApply ks p l).length = l.length := by
  induction l generalizing p with
  | nil => rfl
  | cons b bs ih => simp [ksApply, ih]

theorem ksApply_append (ks : Nat → Nat) (p : Nat) (a b : List Nat) :
    ksApply ks p (a ++ b) = ksApply ks p a ++ ksApply ks (p + a.length) b := by
  induction a generalizing p with
  | nil => simp [ksApply]
  | cons x xs ih =>
    simp only [List.cons_append, ksApply, List.length_cons, List.append_eq]
    rw [ih (p + 1), show p + (xs.length + 1) = p + 1 + xs.length from by omega]

theorem ksApply_take (ks : Nat → Nat) (p n : Nat) (l : List Nat) :
    ksApply ks p (l.take n) = (ksApply ks p l).take n := by
  induction l generalizing p n with
  | nil => simp [ksApply]
  | cons b bs ih =>
    cases n with
    | zero => simp [ksApply]
    | succ n => simp [ksApply, ih]

theorem ksApply_drop (ks : Nat → Nat) (p n : Nat) (l : List Nat) :
    ksApply ks (p + n) (l.drop n) = (ksApply ks p l).drop n := by
  induction l generalizing p n with
  | nil => simp [ksApply]
  | cons b bs ih =>
    cases n with
    | zero => simp [ksApply]
    | succ n =>
      simp only [List.drop_succ_cons, ksApply]
      rw [show p + (n + 1) = (p + 1) + n by omega]
      exact ih (p + 1) n

theorem ksApply_cancel (ks : Nat → Nat) (p : Nat) (l : List Nat) :
    ksApply ks p (ksApply ks p l) = l := by
  induction l generalizing p with
  | nil => rfl
  | cons b bs ih => simp [ksApply, Nat.xor_cancel_right, ih]

/-! ### Parameters codec lemmas -/

theorem be32_length (n : Nat) : (be32 n).length = 4 := rfl

theorem fromBe32_be32 (n : Nat) (h : n < 2 ^ 32) : fromBe32 (be32 n) = n := by
  simp only [be32, fromBe32]
  omega

/-- `EncryptionParams::write` emits exactly `EncryptionParams::LEN = 74`
bytes for a well-formed value. -/
theorem write_length (p : EncryptionParams) (h : p.salt.length = SALT_LEN) :
    p.write.length = EncryptionParams.LEN := by
  simp [EncryptionParams.write, EncryptionParams.LEN, h, SALT_LEN, be32]

theorem ok_bind {ε α β : Type} (x : α) (f : α → Except ε β) :
    (Except.ok x : Except ε α) >>= f = f x := rfl

theorem error_bind {ε α β : Type} (e : ε) (f : α → Except ε β) :
    (Except.error e : Except ε α) >>= f = .error e := rfl

theorem readExact_ok (k : Nat) (s : List Nat) (h : k ≤ s.length) :
    readExact k s = .ok (s.take k, s.drop k) := by
  simp [readExact, h]

theorem readExact_exact (k : Nat) (a b : List Nat) (h : a.length = k) :
    readExact k (a ++ b) = .ok (a, b) := by
  subst h
  simp [readExact, List.take_left, List.drop_left]

theorem readExact_short (k : Nat) (s : List Nat) (h : s.length < k) :
    readExact k s = .error () := by
  simp [readExact]
  omega

/-- Parse-back: `read` on `write`'s output followed by anything returns
exactly the original parameters and the unconsumed rest. -/
theorem read_write (p : EncryptionParams) (hwf : p.Wf) (rest : List Nat) :
    EncryptionParams.read (p.write ++ rest) = .ok (some p, rest) := by
  obtain ⟨salt, ⟨t, m, par⟩, cipher⟩ := p
  obtain ⟨hs, ht, hm, hp⟩ := hwf
  unfold EncryptionParams.read EncryptionParams.write
  simp only [List.append_assoc]
  rw [readExact_exact SALT_LEN salt _ hs]
  simp only [ok_bind]
  rw [readExact_exact 4 (be32 t) _ (be32_length _)]
  simp only [ok_bind]
  rw [readExact_exact 4 (be32 m) _ (be32_length _)]
  simp only [ok_bind]
  rw [readExact_exact 1 [par] _ rfl]
  simp only [ok_bind]
  rw [readExact_exact 1 [cipher.toByte] _ rfl]
  simp only [ok_bind]
  cases cipher <;>
    simp [CipherAlgorithm.toByte, CipherAlgorithm.tryFrom, List.headI,
      fromBe32_be32 _ ht, fromBe32_be32 _ hm]

/-- A stream shorter than the 74 header bytes is a hard I/O error. -/
theorem read_short (s : List Nat) (h : s.length < EncryptionParams.LEN) :
    EncryptionParams.read s = .error () := by
  unfold EncryptionParams.read
  simp only [EncryptionParams.LEN, SALT_LEN] at h
  simp only [SALT_LEN]
  by_cases h64 : 64 ≤ s.length
  · rw [readExact_ok 64 s h64]
    simp only [ok_bind]
    by_cases h68 : 4 ≤ (s.drop 64).length
    · rw [readExact_ok 4 _ h68]
      simp only [ok_bind, List.drop_drop]
      by_cases h72 : 4 ≤ (s.drop (64 + 4)).length
      · rw [readExact_ok 4 _ h72]
        simp only [ok_bind, List.drop_drop]
        by_cases h73 : 1 ≤ (s.drop (64 + 4 + 4)).length
        · rw [readExact_ok 1 _ h73]
          simp only [ok_bind, List.drop_drop]
          rw [readExact_short 1 _ (by simp only [List.length_drop]; omega)]
          rfl
        · rw [readExact_short 1 _ (by omega)]
          rfl
      · rw [readExact_short 4 _ (by omega)]
        rfl
    · rw [readExact_short 4 _ (by omega)]
      rfl
  · rw [readExact_short 64 _ (by omega)]
    rfl

theorem headI_take_one (l : List Nat) : (l.take 1).headI = l.headI := by
  cases l <;> rfl

/-- `read` on a stream of at least 74 bytes: the result is decided solely by
the cipher-id byte at offset 73; 74 bytes are consumed either way. -/
theorem read_long (s : List Nat) (h : EncryptionParams.LEN ≤ s.length) :
    EncryptionParams.read s =
      match CipherAlgorithm.tryFrom ((s.drop 73).headI) with
      | some c =>
          .ok (some { salt := s.take 64,
                      argon2 := { t_cost := fromBe32 ((s.drop 64).take 4),
                                  m_cost := fromBe32 ((s.drop 68).take 4),
                                  parallelism := (s.drop 72).headI },
                      cipher := c }, s.drop 74)
      | none => .ok (none, s.drop 74) := by
  simp only [EncryptionParams.LEN, SALT_LEN] at h
  unfold EncryptionParams.read
  simp only [SALT_LEN]
  rw [readExact_ok 64 s (by omega)]
  simp only [ok_bind]
  rw [readExact_ok 4 _ (by simp only [List.length_drop]; omega)]
  simp only [ok_bind, List.drop_drop]
  rw [readExact_ok 4 _ (by simp only [List.length_drop]; omega)]
  simp only [ok_bind, List.drop_drop]
  rw [readExact_ok 1 _ (by simp only [List.length_drop]; omega)]
  simp only [ok_bind, List.drop_drop]
  rw [readExact_ok 1 _ (by simp only [List.length_drop]; omega)]
  simp only [ok_bind, List.drop_drop, headI_take_one]

/-! ### Encrypt pipeline: closed form -/

/-- The encrypt loop is a single keystream application: the emitted
ciphertext is the whole remaining input XORed with the keystream from the
current position, the transcript grows by exactly that ciphertext, and the
residual buffer is untouched. -/
theorem encryptLoop_eq (c : Crypto) (pos : Nat) (t buf : List Nat)
    (input : List Nat) (block : Nat) (hb : 0 < block) :
    encryptLoop ⟨c, pos, t, buf⟩ input block =
      (⟨c, pos + input.length, t ++ ksApply c.ks pos input, buf⟩,
        ksApply c.ks pos input) := by
  have hle : min block input.length ≤ input.length := Nat.min_le_right _ _
  unfold encryptLoop
  by_cases h0 : min block input.length = 0
  · have hnil : input = [] := List.eq_nil_of_length_eq_zero (by omega)
    subst hnil
    simp [ksApply]
  · rw [dif_neg h0]
    simp only [DobyCipher.encrypt_chunk]
    rw [List.length_take, Nat.min_eq_left hle]
    rw [encryptLoop_eq c (pos + min block input.length)
      (t ++ ksApply c.ks pos (input.take (min block input.length))) buf
      (input.drop (min block input.length)) block hb]
    rw [ksApply_take, ksApply_drop, List.length_drop]
    simp only [Prod.mk.injEq, DobyCipher.mk.injEq, List.append_assoc,
      List.take_append_drop, true_and, and_true]
    omega
  termination_by input.length
  decreasing_by simp only [List.length_drop]; omega

theorem take_append_drop_min (k : Nat) (l : List Nat) :
    l.take k ++ l.drop (min k l.length) = l := by
  rw [show l.take k = l.take (min k l.length) from by
    rw [List.take_eq_take]; omega]
  exact List.take_append_drop _ _

/-- Closed form of `encrypt` with carry-over bytes (the shape used by the
mode selector): magic, serialized parameters, the keystream applied to
carry-over plus the whole input, then the tag over the serialized
parameters followed by the ciphertext. -/
theorem encrypt_eq_some (c : Crypto) (params : EncryptionParams)
    (input : List Nat) (block : Nat) (ar : List Nat) (hb : ar.length < block) :
    encrypt c params input block (some ar) =
      MAGIC_BYTES ++ params.write ++ ksApply c.ks 0 (ar ++ input) ++
        c.mac (params.write ++ ksApply c.ks 0 (ar ++ input)) := by
  have hbpos : 0 < block := by omega
  unfold encrypt
  simp only [DobyCipher.new, DobyCipher.encrypt_chunk, DobyCipher.write_hmac]
  by_cases hn : (input.take (block - ar.length)).length = 0
  · have hinput : input = [] := by
      rw [List.length_take] at hn
      exact List.eq_nil_of_length_eq_zero (by omega)
    subst hinput
    simp [ksApply]
  · simp only [if_pos hn]
    rw [List.length_take] at hn ⊢
    rw [encryptLoop_eq c (0 + (ar ++ input.take (block - ar.length)).length)
      (params.write ++ ksApply c.ks 0 (ar ++ input.take (block - ar.length))) []
      (input.drop (min (block - ar.length) input.length)) block hbpos]
    have hsplit : ar ++ input =
        (ar ++ input.take (block - ar.length)) ++
          input.drop (min (block - ar.length) input.length) := by
      rw [List.append_assoc, take_append_drop_min]
    rw [hsplit]
    simp [ksApply_append, List.append_assoc]

/-- Closed form of `encrypt` without carry-over. -/
theorem encrypt_eq_none (c : Crypto) (params : EncryptionParams)
    (input : List Nat) (block : Nat) (hb : 0 < block) :
    encrypt c params input block none =
      MAGIC_BYTES ++ params.write ++ ksApply c.ks 0 input ++
        c.mac (params.write ++ ksApply c.ks 0 input) := by
  unfold encrypt
  simp only [DobyCipher.new, DobyCipher.write_hmac]
  rw [if_pos (by simp : (1 : Nat) ≠ 0)]
  rw [encryptLoop_eq c 0 params.write [] input block hb]
  simp [List.append_assoc]

/-- The routing outcome of src/main.rs `run` after the magic-byte peek. -/
inductive Mode where
  | encryptStream (carry : List Nat) (rest : List Nat)
  | decryptStream (params : EncryptionParams) (rest : List Nat)
  | formatError
  | ioError

/-- src/main.rs `run`, the mode selector: read up to 4 bytes into a
zero-initialized 4-byte buffer (`vec![0; MAGIC_BYTES.len()]`), compare
the whole buffer against `MAGIC_BYTES`; on a match with `force_encrypt`
unset, parse the header (`EncryptionParams::read`) and route to decrypt
(`Ok(None)` is reported as invalid parameters), otherwise route to
encrypt passing the `n` already-read bytes (`&magic_bytes[..n]`). -/
def selectMode (force_encrypt : Bool) (input : List Nat) : Mode :=
  let n := min MAGIC_BYTES.length input.length
  let magic_bytes := input.take n ++ List.replicate (MAGIC_BYTES.length - n) 0
  if magic_bytes = MAGIC_BYTES ∧ force_encrypt = false then
    match EncryptionParams.read (input.drop n) with
    | .ok (some params, rest) => .decryptStream params rest
    | .ok (none, _) => .formatError
    | .error _ => .ioError
  else
    .encryptStream (input.take n) (input.drop n)

/-- src/cli.rs `number`: parse a flag value (`val.parse::<T>()` for an
unsigned integer type) as a number; `None` (with an error message) when
the value is not a number.  The flag value is modelled as its ASCII
bytes: a parse succeeds exactly on a non-empty digit string and yields
its decimal value. -/
def number (s : List Nat) : Option Nat :=
  if s ≠ [] ∧ s.all (fun ch => decide (48 ≤ ch) && decide (ch ≤ 57)) then
    some (s.foldl (fun n ch => n * 10 + (ch - 48)) 0)
  else none

/-- src/cli.rs `parse`: the `-b`/`--block-size` flag value is obtained by
`number(...)` alone and stored into `CliArgs::block_size`; no bound
check of any kind is applied to it. -/
def parseBlockSize (s : List Nat) : Option Nat := number s

/-- A concrete primitive instantiation used to exercise the pipelines at
concrete inputs: keystream byte `i+1 mod 256`, tag `63 zeros ++ sum of
the transcript mod 256`. -/
def sampleCrypto : Crypto where
  ks := fun i => (i + 1) % 256
  mac := fun t => List.replicate 63 0 ++ [t.sum % 256]
  mac_len := fun t => by simp [HASH_LEN]

/-- Concrete well-formed parameters used to exercise the codec and the
pipelines at concrete inputs. -/
def sampleParams : EncryptionParams :=
  { salt := List.replicate 64 7, argon2 := ⟨2, 16, 3⟩, cipher := .AesCtr }

/-! ### Decrypt pipeline: closed form -/

/-- Closed form of the decrypt loop from a state whose residual buffer is
empty or exactly tag-sized: with a working buffer larger than
`HASH_LEN`, the loop processes all but the last `HASH_LEN` bytes of
(residual ++ remaining stream), leaves exactly the last `HASH_LEN` bytes
(or the whole stream, if shorter) as the residual, absorbs the processed
ciphertext into the transcript, and outputs its decryption. -/
theorem decryptLoop_spec (c : Crypto) (p : Nat) (t b s : List Nat) (block : Nat)
    (hblock : HASH_LEN < block) (hb : b.length = 0 ∨ b.length = HASH_LEN) :
    decryptLoop ⟨c, p, t, b⟩ s block =
      (⟨c, p + ((b ++ s).length - HASH_LEN),
         t ++ (b ++ s).take ((b ++ s).length - HASH_LEN),
         (b ++ s).drop ((b ++ s).length - HASH_LEN)⟩,
       ksApply c.ks p ((b ++ s).take ((b ++ s).length - HASH_LEN))) := by
  have hchunk : DobyCipher.decrypt_chunk ⟨c, p, t, b⟩ s block =
      (⟨c, p + (if HASH_LEN ≤ b.length + (s.take (block - b.length)).length
              then b.length + (s.take (block - b.length)).length - HASH_LEN else 0),
        t ++ (b ++ s.take (block - b.length)).take
          (if HASH_LEN ≤ b.length + (s.take (block - b.length)).length
           then b.length + (s.take (block - b.length)).length - HASH_LEN else 0),
        if HASH_LEN ≤ b.length + (s.take (block - b.length)).length
        then (b ++ s.take (block - b.length)).drop
          (if HASH_LEN ≤ b.length + (s.take (block - b.length)).length
           then b.length + (s.take (block - b.length)).length - HASH_LEN else 0)
        else b ++ (b ++ s.take (block - b.length)).take
          (b.length + (s.take (block - b.length)).length)⟩,
       s.drop (s.take (block - b.length)).length,
       (if HASH_LEN ≤ b.length + (s.take (block - b.length)).length
        then b.length + (s.take (block - b.length)).length - HASH_LEN else 0),
       ksApply c.ks p ((b ++ s.take (block - b.length)).take
         (if HASH_LEN ≤ b.length + (s.take (block - b.length)).length
          then b.length + (s.take (block - b.length)).length - HASH_LEN else 0))) := rfl
  have hm : (s.take (block - b.length)).length = min (block - b.length) s.length :=
    List.length_take _ _
  by_cases hlen : (b ++ s).length ≤ HASH_LEN
  · -- terminal: the single chunk call returns n = 0 and the loop stops
    have hstake : s.take (block - b.length) = s := by
      apply List.take_of_length_le
      rw [List.length_append] at hlen
      rcases hb with h0 | h64 <;> omega
    rw [hstake] at hchunk
    have hlen' : b.length + s.length ≤ HASH_LEN := by
      rw [List.length_append] at hlen; exact hlen
    have hneq : (if HASH_LEN ≤ b.length + s.length
        then b.length + s.length - HASH_LEN else 0) = 0 := by
      split <;> omega
    rw [hneq] at hchunk
    have hbuf : (if HASH_LEN ≤ b.length + s.length
        then (b ++ s).drop 0
        else b ++ (b ++ s).take (b.length + s.length)) = b ++ s := by
      split
      · exact List.drop_zero _
      · rcases hb with h0 | h64
        · have hbnil : b = [] := List.eq_nil_of_length_eq_zero h0
          subst hbnil
          simp
        · omega
    rw [hbuf] at hchunk
    have hzero : b.length + s.length - HASH_LEN = 0 := by omega
    unfold decryptLoop
    rw [hchunk]
    simp [hzero, ksApply]
  · -- recursive: the chunk call processes n = r + m - HASH_LEN > 0 bytes
    rw [List.length_append] at hlen
    have hcond : HASH_LEN ≤ b.length + (s.take (block - b.length)).length ∧
        0 < b.length + (s.take (block - b.length)).length - HASH_LEN := by
      rcases hb with h0 | h64 <;> (rw [hm]; constructor <;> omega)
    have hn : (if HASH_LEN ≤ b.length + (s.take (block - b.length)).length
        then b.length + (s.take (block - b.length)).length - HASH_LEN else 0) =
        b.length + (s.take (block - b.length)).length - HASH_LEN :=
      if_pos hcond.1
    rw [hn] at hchunk
    rw [if_pos hcond.1] at hchunk
    set M := (s.take (block - b.length)).length with hMdef
    set N := b.length + M - HASH_LEN with hNdef
    set W := b ++ s.take (block - b.length) with hWdef
    have hWlen : W.length = b.length + M := by
      rw [hWdef, List.length_append]
    have hKm : s.take (block - b.length) = s.take M := by
      rw [List.take_eq_take]
      omega
    have hsplit : b ++ s = W ++ s.drop M := by
      rw [hWdef, List.append_assoc, hKm, List.take_append_drop]
    have hnW : N ≤ W.length := by rw [hWlen]; omega
    have htake_n : (b ++ s).take N = W.take N := by
      rw [hsplit, List.take_append_of_le_length hnW]
    have hdrop_n : (b ++ s).drop N = W.drop N ++ s.drop M := by
      rw [hsplit, List.drop_append_of_le_length hnW]
    have hrecb : (W.drop N).length = HASH_LEN := by
      rw [List.length_drop, hWlen]; omega
    unfold decryptLoop
    rw [hchunk]
    rw [dif_neg (show ¬ N = 0 from by omega)]
    simp only []
    rw [decryptLoop_spec c (p + N) (t ++ W.take N) (W.drop N) (s.drop M) block
      hblock (Or.inr hrecb)]
    rw [← hdrop_n, ← htake_n]
    have hTlen : ((b ++ s).take N).length = N := by
      rw [List.length_take, hsplit, List.length_append]
      omega
    clear_value M N W
    simp only [Prod.mk.injEq, DobyCipher.mk.injEq]
    refine ⟨⟨trivial, ?_, ?_, ?_⟩, ?_⟩
    · simp only [List.length_drop, List.length_append]
      omega
    · rw [List.append_assoc, ← List.take_add]
      congr 2
      simp only [List.length_drop, List.length_append]
      omega
    · rw [List.drop_drop]
      congr 1
      simp only [List.length_drop, List.length_append]
      omega
    · rw [show p + N = p + ((b ++ s).take N).length from by rw [hTlen]]
      rw [← ksApply_append, ← List.take_add]
      congr 2
      simp only [List.length_drop, List.length_append]
      omega
  termination_by s.length + b.length
  decreasing_by simp only [List.length_drop]; rw [hWlen]; omega

end Doby
namespace Doby

theorem MAGIC_BYTES_length : MAGIC_BYTES.length = 4 := rfl

/-- The zero-padded 4-byte peek buffer equals the magic bytes iff the
input really starts with the 4 magic bytes ("DOBY" has no zero byte, so
a short input can never match). -/
theorem magic_pad_eq (input : List Nat) :
    (input.take (min MAGIC_BYTES.length input.length) ++
        List.replicate (MAGIC_BYTES.length - min MAGIC_BYTES.length input.length) 0
      = MAGIC_BYTES)
      ↔ (input.take 4 = MAGIC_BYTES ∧ 4 ≤ input.length) := by
  rcases input with _ | ⟨a, _ | ⟨b, _ | ⟨c, _ | ⟨d, tl⟩⟩⟩⟩ <;>
    simp [MAGIC_BYTES, List.take, Nat.min_def]

/-- C8: the mode selector reads at most 4 bytes; if `force_encrypt` is
set, or the first 4 bytes differ from "DOBY", or fewer than 4 bytes are
available, it routes to the encrypt pipeline passing exactly the
already-read bytes as carry-over — so the plaintext stream that gets
encrypted is exactly the whole input — and otherwise (magic matched,
`force_encrypt` unset, header parses) it routes to decrypt with the
parsed parameters. -/
theorem C8_mode_selector (force : Bool) (input : List Nat)
    (c : Crypto) (params : EncryptionParams) (block : Nat) (hblock : 4 < block) :
    ((force = true ∨ input.take 4 ≠ MAGIC_BYTES ∨ input.length < 4) →
      selectMode force input =
        .encryptStream (input.take (min 4 input.length))
          (input.drop (min 4 input.length)) ∧
      (input.take (min 4 input.length)).length ≤ 4 ∧
      input.take (min 4 input.length) ++ input.drop (min 4 input.length) = input ∧
      encrypt c params (input.drop (min 4 input.length)) block
          (some (input.take (min 4 input.length))) =
        MAGIC_BYTES ++ params.write ++ ksApply c.ks 0 input ++
          c.mac (params.write ++ ksApply c.ks 0 input)) ∧
    (force = false → input.take 4 = MAGIC_BYTES → 4 ≤ input.length →
      ∀ q rest, EncryptionParams.read (input.drop 4) = .ok (some q, rest) →
        selectMode force input = .decryptStream q rest) := by
  constructor
  · intro h
    have hcond : ¬ (input.take (min MAGIC_BYTES.length input.length) ++
        List.replicate (MAGIC_BYTES.length - min MAGIC_BYTES.length input.length) 0
          = MAGIC_BYTES ∧ force = false) := by
      rw [magic_pad_eq]
      rcases h with h | h | h
      · rintro ⟨-, hf⟩
        rw [h] at hf
        cases hf
      · rintro ⟨⟨h4, -⟩, -⟩
        exact h h4
      · rintro ⟨⟨-, h4⟩, -⟩
        omega
    refine ⟨?_, ?_, ?_, ?_⟩
    · unfold selectMode
      rw [if_neg hcond, MAGIC_BYTES_length]
    · rw [List.length_take]
      omega
    · exact List.take_append_drop _ _
    · rw [encrypt_eq_some c params _ block _
        (by rw [List.length_take]; omega)]
      rw [List.take_append_drop]
  · intro hf h4 hlen q rest hread
    unfold selectMode
    rw [MAGIC_BYTES_length, Nat.min_eq_left hlen]
    rw [if_pos ⟨by simp [h4], hf⟩]
    rw [hread]

/-- C2 (amended): the container is exactly 142 bytes longer than the
plaintext (4 magic + 74 header + 64 tag), for any payload including the
empty one and either cipher kind; with carry-over bytes the plaintext is
the carry-over plus the stream. -/
theorem C2_overhead_142 (c : Crypto) (params : EncryptionParams)
    (input ar : List Nat) (block : Nat) (hb : 0 < block)
    (har : ar.length < block) (hs : params.salt.length = SALT_LEN) :
    (encrypt c params input block none).length = input.length + 142 ∧
    (encrypt c params input block (some ar)).length =
      ar.length + input.length + 142 := by
  constructor
  · rw [encrypt_eq_none c params input block hb]
    simp [List.length_append, ksApply_length, c.mac_len,
      write_length params hs, EncryptionParams.LEN, SALT_LEN, HASH_LEN,
      MAGIC_BYTES]
    omega
  · rw [encrypt_eq_some c params input block ar har]
    simp [List.length_append, ksApply_length, c.mac_len,
      write_length params hs, EncryptionParams.LEN, SALT_LEN, HASH_LEN,
      MAGIC_BYTES]
    omega

theorem C2_witness :
    (encrypt sampleCrypto sampleParams [9] 100 none).length = [9].length + 142 ∧
    (encrypt sampleCrypto sampleParams [9] 100 (some [1, 2])).length =
      [1, 2].length + [9].length + 142 :=
  C2_overhead_142 sampleCrypto sampleParams [9] [1, 2] 100 (by decide)
    (by decide) (by decide)

set_option maxRecDepth 10000 in
/-- C2 counterexample: the zero-byte payload yields a 142-byte container,
not a 113-byte one. -/
theorem C2_counterexample :
    (encrypt sampleCrypto sampleParams [] 65536 none).length = 142 ∧
    (142 : Nat) ≠ 113 := by
  constructor
  · rw [encrypt_eq_none sampleCrypto sampleParams [] 65536 (by decide)]
    decide
  · decide


/-- C3 (amended): `EncryptionParams::write` serializes the header as
exactly 74 bytes: 64-byte salt, 4-byte big-endian time cost at offset
64, 4-byte big-endian memory cost at offset 68, parallelism as a single
byte at offset 72, and the cipher-id byte at offset 73. -/
theorem C3_header_layout_74 (p : EncryptionParams)
    (h : p.salt.length = SALT_LEN) :
    p.write.length = 74 ∧
    p.write.take 64 = p.salt ∧
    (p.write.drop 64).take 4 = be32 p.argon2.t_cost ∧
    (p.write.drop 68).take 4 = be32 p.argon2.m_cost ∧
    (p.write.drop 72).take 1 = [p.argon2.parallelism] ∧
    p.write.drop 73 = [p.cipher.toByte] := by
  have hw : p.write = p.salt ++ (be32 p.argon2.t_cost ++ (be32 p.argon2.m_cost
      ++ ([p.argon2.parallelism] ++ [p.cipher.toByte]))) := by
    simp [EncryptionParams.write, List.append_assoc]
  have h64 : (64 : Nat) = p.salt.length := by rw [h]; rfl
  have hd64 : p.write.drop 64 = be32 p.argon2.t_cost ++ (be32 p.argon2.m_cost
      ++ ([p.argon2.parallelism] ++ [p.cipher.toByte])) := by
    rw [hw, h64, List.drop_left]
  have hd68 : p.write.drop 68 = be32 p.argon2.m_cost
      ++ ([p.argon2.parallelism] ++ [p.cipher.toByte]) := by
    rw [show (68 : Nat) = 64 + 4 from rfl, ← List.drop_drop, hd64,
      show (4 : Nat) = (be32 p.argon2.t_cost).length from (be32_length _).symm,
      List.drop_left]
  have hd72 : p.write.drop 72 = [p.argon2.parallelism] ++ [p.cipher.toByte] := by
    rw [show (72 : Nat) = 68 + 4 from rfl, ← List.drop_drop, hd68,
      show (4 : Nat) = (be32 p.argon2.m_cost).length from (be32_length _).symm,
      List.drop_left]
  have hd73 : p.write.drop 73 = [p.cipher.toByte] := by
    rw [show (73 : Nat) = 72 + 1 from rfl, ← List.drop_drop, hd72]
    rfl
  refine ⟨by rw [write_length p h]; rfl, ?_, ?_, ?_, ?_, hd73⟩
  · rw [hw, h64, List.take_left]
  · rw [hd64,
      show (4 : Nat) = (be32 p.argon2.t_cost).length from (be32_length _).symm,
      List.take_left]
  · rw [hd68,
      show (4 : Nat) = (be32 p.argon2.m_cost).length from (be32_length _).symm,
      List.take_left]
  · rw [hd72]
    rfl

theorem C3_witness :
    (EncryptionParams.write sampleParams).length = 74 ∧
    (EncryptionParams.write sampleParams).take 64 = sampleParams.salt ∧
    ((EncryptionParams.write sampleParams).drop 64).take 4 =
      be32 sampleParams.argon2.t_cost ∧
    ((EncryptionParams.write sampleParams).drop 68).take 4 =
      be32 sampleParams.argon2.m_cost ∧
    ((EncryptionParams.write sampleParams).drop 72).take 1 =
      [sampleParams.argon2.parallelism] ∧
    (EncryptionParams.write sampleParams).drop 73 =
      [sampleParams.cipher.toByte] :=
  C3_header_layout_74 sampleParams (by decide)

set_option maxRecDepth 10000 in
/-- C3 counterexample: the serialized header of a concrete parameter
value is 74 bytes, not 77; the byte at offset 72 is the parallelism
itself (one byte, not a 4-byte big-endian field), and offset 73 is
already the cipher id. -/
theorem C3_counterexample :
    (EncryptionParams.write sampleParams).length = 74 ∧ (74 : Nat) ≠ 77 := by
  decide

/-- C4 (amended): the finalised tag is `HASH_LEN` = 64 bytes (not 32) and
is appended in full, verbatim, immediately after the last ciphertext
byte on every successful run, including on empty input; the ciphertext
has exactly the plaintext's length, so the tag occupies the final 64
bytes of the container. -/
theorem C4_tag_64_appended (c : Crypto) (params : EncryptionParams)
    (input : List Nat) (block : Nat) (hb : 0 < block) :
    encrypt c params input block none =
      (MAGIC_BYTES ++ params.write ++ ksApply c.ks 0 input) ++
        c.mac (params.write ++ ksApply c.ks 0 input) ∧
    (c.mac (params.write ++ ksApply c.ks 0 input)).length = HASH_LEN ∧
    (ksApply c.ks 0 input).length = input.length := by
  refine ⟨?_, c.mac_len _, ksApply_length _ _ _⟩
  rw [encrypt_eq_none c params input block hb]

theorem C4_witness :
    encrypt sampleCrypto sampleParams [] 100 none =
      (MAGIC_BYTES ++ sampleParams.write ++ ksApply sampleCrypto.ks 0 []) ++
        sampleCrypto.mac (sampleParams.write ++ ksApply sampleCrypto.ks 0 []) ∧
    (sampleCrypto.mac
      (sampleParams.write ++ ksApply sampleCrypto.ks 0 [])).length = HASH_LEN ∧
    (ksApply sampleCrypto.ks 0 []).length = ([] : List Nat).length :=
  C4_tag_64_appended sampleCrypto sampleParams [] 100 (by decide)

set_option maxRecDepth 10000 in
/-- C4 counterexample: on a concrete successful run with empty input the
bytes following the magic and header — the appended tag — number 64,
not 32. -/
theorem C4_counterexample :
    ((encrypt sampleCrypto sampleParams [] 65536 none).drop 78).length = 64 ∧
    (64 : Nat) ≠ 32 := by
  constructor
  · rw [encrypt_eq_none sampleCrypto sampleParams [] 65536 (by decide)]
    decide
  · decide


/-- C1: for every key-derivation function, password, well-formed
parameters with KDF-accepted costs (either cipher kind), and every
plaintext including the empty one, parsing the header back out of
`encrypt`'s container yields exactly the original parameters, and
`decrypt` with the cipher rebuilt from the same password and those
parsed-back parameters (chunk size above the tag length on the decrypt
side, positive on the encrypt side) writes back exactly the original
plaintext and verifies successfully. -/
theorem C1_roundtrip (derive : List Nat → EncryptionParams → Crypto)
    (password : List Nat) (params : EncryptionParams) (plaintext : List Nat)
    (blockE blockD : Nat) (hwf : params.Wf) (hcosts : validCosts params.argon2)
    (hbE : 0 < blockE) (hbD : HASH_LEN < blockD) :
    (match EncryptionParams.read
        ((encrypt (derive password params) params plaintext blockE none).drop
          MAGIC_BYTES.length) with
    | .ok (some q, rest) =>
        q = params ∧
        decrypt (DobyCipher.new (derive password q) q) rest blockD =
          (plaintext, true)
    | _ => False) := by
  rw [encrypt_eq_none (derive password params) params plaintext blockE hbE]
  rw [List.append_assoc, List.append_assoc, List.drop_left]
  rw [read_write params hwf]
  refine ⟨rfl, ?_⟩
  unfold decrypt DobyCipher.new
  rw [decryptLoop_spec (derive password params) 0 params.write [] _ blockD hbD
    (Or.inl rfl)]
  have hct : (ksApply (derive password params).ks 0 plaintext).length =
      plaintext.length := ksApply_length _ _ _
  have htag : ((derive password params).mac (params.write ++
      ksApply (derive password params).ks 0 plaintext)).length = HASH_LEN :=
    (derive password params).mac_len _
  have hlen : (([] : List Nat) ++ (ksApply (derive password params).ks 0 plaintext ++
      (derive password params).mac (params.write ++
        ksApply (derive password params).ks 0 plaintext))).length - HASH_LEN =
      (ksApply (derive password params).ks 0 plaintext).length := by
    simp only [List.nil_append, List.length_append, hct, htag]
    omega
  rw [hlen]
  simp only [List.nil_append, List.take_left, List.drop_left]
  rw [ksApply_cancel]
  simp [DobyCipher.verify_hmac]

theorem C1_witness :
    (match EncryptionParams.read
        ((encrypt ((fun _ _ => sampleCrypto) [42] sampleParams) sampleParams
          [10, 20, 30] 100 none).drop MAGIC_BYTES.length) with
    | .ok (some q, rest) =>
        q = sampleParams ∧
        decrypt (DobyCipher.new ((fun _ _ => sampleCrypto) [42] q) q) rest 100 =
          ([10, 20, 30], true)
    | _ => False) :=
  C1_roundtrip (fun _ _ => sampleCrypto) [42] sampleParams [10, 20, 30] 100 100
    (by decide) (by decide) (by decide) (by decide)

/-- C5 (amended): `EncryptionParams::read` returns an empty optional in
exactly ONE case — the cipher-id byte (the 74th header byte) is not in
{0, 1}; the KDF cost tuple is not examined by `read` at all.  A stream
too short for any header field is a hard I/O error, and these are the
only possible outcomes besides a successful parse. -/
theorem C5_read_none_characterization (s : List Nat) :
    ((∃ r, EncryptionParams.read s = .ok (none, r)) ↔
      (EncryptionParams.LEN ≤ s.length ∧
        CipherAlgorithm.tryFrom ((s.drop 73).headI) = none)) ∧
    (EncryptionParams.read s = .error () ↔ s.length < EncryptionParams.LEN) := by
  by_cases h : EncryptionParams.LEN ≤ s.length
  · rw [read_long s h]
    constructor
    · constructor
      · rintro ⟨r, hr⟩
        refine ⟨h, ?_⟩
        rcases hc : CipherAlgorithm.tryFrom ((s.drop 73).headI) with _ | c
        · rfl
        · rw [hc] at hr
          simp at hr
      · rintro ⟨-, hc⟩
        rw [hc]
        exact ⟨s.drop 74, rfl⟩
    · constructor
      · intro hr
        rcases hc : CipherAlgorithm.tryFrom ((s.drop 73).headI) with _ | c <;>
          rw [hc] at hr <;> simp at hr
      · intro hr
        omega
  · rw [read_short s (by omega)]
    constructor
    · constructor
      · rintro ⟨r, hr⟩
        simp at hr
      · rintro ⟨hge, -⟩
        exact absurd hge h
    · constructor
      · intro
        omega
      · intro
        rfl

set_option maxRecDepth 10000 in
/-- C5 counterexample: a 74-byte header whose cipher-id byte is valid (0)
but whose decoded cost tuple (t=0, m=0, p=0) is rejected by the KDF
constructor is still parsed as `Ok(Some(...))` — `read` does not return
an empty optional on KDF-rejected costs, refuting the claimed second
case. -/
theorem C5_counterexample :
    EncryptionParams.read (List.replicate 74 0) =
      .ok (some { salt := List.replicate 64 0, argon2 := ⟨0, 0, 0⟩,
                  cipher := .AesCtr }, []) ∧
    ¬ validCosts ⟨0, 0, 0⟩ := by
  constructor
  · rfl
  · decide


/-- One-step equation for `decrypt_chunk` on an explicit state. -/
theorem decrypt_chunk_eq (c : Crypto) (p : Nat) (t b s : List Nat) (block : Nat) :
    DobyCipher.decrypt_chunk ⟨c, p, t, b⟩ s block =
      (⟨c, p + (if HASH_LEN ≤ b.length + (s.take (block - b.length)).length
              then b.length + (s.take (block - b.length)).length - HASH_LEN else 0),
        t ++ (b ++ s.take (block - b.length)).take
          (if HASH_LEN ≤ b.length + (s.take (block - b.length)).length
           then b.length + (s.take (block - b.length)).length - HASH_LEN else 0),
        if HASH_LEN ≤ b.length + (s.take (block - b.length)).length
        then (b ++ s.take (block - b.length)).drop
          (if HASH_LEN ≤ b.length + (s.take (block - b.length)).length
           then b.length + (s.take (block - b.length)).length - HASH_LEN else 0)
        else b ++ (b ++ s.take (block - b.length)).take
          (b.length + (s.take (block - b.length)).length)⟩,
       s.drop (s.take (block - b.length)).length,
       (if HASH_LEN ≤ b.length + (s.take (block - b.length)).length
        then b.length + (s.take (block - b.length)).length - HASH_LEN else 0),
       ksApply c.ks p ((b ++ s.take (block - b.length)).take
         (if HASH_LEN ≤ b.length + (s.take (block - b.length)).length
          then b.length + (s.take (block - b.length)).length - HASH_LEN else 0))) := rfl

/-- With a working buffer no larger than the tag (`block ≤ HASH_LEN`), the
decrypt loop stops on its very first iteration: no plaintext is ever
emitted and verification compares the tag against the first `block`
bytes of the stream. -/
theorem decrypt_small_block (c : Crypto) (p : Nat) (t s : List Nat)
    (block : Nat) (hsmall : block ≤ HASH_LEN) :
    decrypt ⟨c, p, t, []⟩ s block = ([], c.mac (t ++ []) == s.take block) := by
  have hm : (s.take (block - ([] : List Nat).length)).length =
      min block s.length := by
    simp [List.length_take]
  have hn : (if HASH_LEN ≤ ([] : List Nat).length +
        (s.take (block - ([] : List Nat).length)).length
      then ([] : List Nat).length +
        (s.take (block - ([] : List Nat).length)).length - HASH_LEN
      else 0) = 0 := by
    simp only [List.length_nil, Nat.zero_add, Nat.sub_zero] at hm ⊢
    split <;> omega
  unfold decrypt decryptLoop
  rw [decrypt_chunk_eq, hn]
  rw [dif_pos rfl]
  have hbuf : (if HASH_LEN ≤ ([] : List Nat).length +
        (s.take (block - ([] : List Nat).length)).length
      then (([] : List Nat) ++ s.take (block - ([] : List Nat).length)).drop 0
      else ([] : List Nat) ++
        (([] : List Nat) ++ s.take (block - ([] : List Nat).length)).take
          (([] : List Nat).length +
            (s.take (block - ([] : List Nat).length)).length)) =
      s.take block := by
    split
    · simp
    · simp [List.take_of_length_le]
  rw [hbuf]
  simp [DobyCipher.verify_hmac]

/-- C6 (amended: the constant is `HASH_LEN` = 64, not 32): in a
`decrypt_chunk` iteration with `r` residual bytes and `m` newly read
bytes, if `r + m ≥ 64` then exactly `n = r + m - 64` bytes are processed
and the last 64 bytes of the working buffer become the new residual,
otherwise `n = 0` and the residual holds exactly the `r + m` available
bytes; consequently, when the loop ends the residual contains exactly
the last 64 bytes of the input stream (all of it, if shorter), which is
the candidate tag passed to verification. -/
theorem C6_residual_is_tag (c : Crypto) (p : Nat) (t b s : List Nat)
    (block : Nat) (hblock : HASH_LEN < block)
    (hb : b.length = 0 ∨ b.length = HASH_LEN) :
    ((DobyCipher.decrypt_chunk ⟨c, p, t, b⟩ s block).2.2.1 =
      (if HASH_LEN ≤ b.length + (s.take (block - b.length)).length
       then b.length + (s.take (block - b.length)).length - HASH_LEN
       else 0)) ∧
    (HASH_LEN ≤ b.length + (s.take (block - b.length)).length →
      (DobyCipher.decrypt_chunk ⟨c, p, t, b⟩ s block).1.buffer =
        (b ++ s.take (block - b.length)).drop
          (b.length + (s.take (block - b.length)).length - HASH_LEN) ∧
      ((DobyCipher.decrypt_chunk ⟨c, p, t, b⟩ s block).1.buffer).length =
        HASH_LEN) ∧
    (¬ HASH_LEN ≤ b.length + (s.take (block - b.length)).length →
      (DobyCipher.decrypt_chunk ⟨c, p, t, b⟩ s block).1.buffer =
        b ++ s.take (block - b.length) ∧
      ((DobyCipher.decrypt_chunk ⟨c, p, t, b⟩ s block).1.buffer).length =
        b.length + (s.take (block - b.length)).length) ∧
    ((decryptLoop ⟨c, p, t, []⟩ s block).1.buffer =
      s.drop (s.length - HASH_LEN)) ∧
    ((decrypt ⟨c, p, t, []⟩ s block).2 =
      (c.mac (t ++ s.take (s.length - HASH_LEN)) ==
        s.drop (s.length - HASH_LEN))) := by
  rw [decrypt_chunk_eq]
  have hloop := decryptLoop_spec c p t [] s block hblock (Or.inl rfl)
  refine ⟨rfl, ?_, ?_, ?_, ?_⟩
  · intro hge
    rw [if_pos hge, if_pos hge]
    refine ⟨rfl, ?_⟩
    simp only [List.length_drop, List.length_append]
    omega
  · intro hlt
    rw [if_neg hlt]
    have hb0 : b.length = 0 := by
      rcases hb with h0 | h64
      · exact h0
      · exfalso
        simp only [HASH_LEN] at *
        omega
    have hbnil : b = [] := List.eq_nil_of_length_eq_zero hb0
    subst hbnil
    simp [List.take_of_length_le]
  · rw [hloop]
    simp
  · unfold decrypt
    rw [hloop]
    simp [DobyCipher.verify_hmac]

theorem C6_witness :
    ((DobyCipher.decrypt_chunk ⟨sampleCrypto, 0, [], []⟩
        (List.replicate 70 5) 100).2.2.1 =
      (if HASH_LEN ≤ ([] : List Nat).length +
          ((List.replicate 70 5).take (100 - ([] : List Nat).length)).length
       then ([] : List Nat).length +
          ((List.replicate 70 5).take (100 - ([] : List Nat).length)).length -
            HASH_LEN
       else 0)) ∧
    (HASH_LEN ≤ ([] : List Nat).length +
        ((List.replicate 70 5).take (100 - ([] : List Nat).length)).length →
      (DobyCipher.decrypt_chunk ⟨sampleCrypto, 0, [], []⟩
          (List.replicate 70 5) 100).1.buffer =
        (([] : List Nat) ++ (List.replicate 70 5).take
            (100 - ([] : List Nat).length)).drop
          (([] : List Nat).length +
            ((List.replicate 70 5).take
              (100 - ([] : List Nat).length)).length - HASH_LEN) ∧
      ((DobyCipher.decrypt_chunk ⟨sampleCrypto, 0, [], []⟩
          (List.replicate 70 5) 100).1.buffer).length = HASH_LEN) ∧
    (¬ HASH_LEN ≤ ([] : List Nat).length +
        ((List.replicate 70 5).take (100 - ([] : List Nat).length)).length →
      (DobyCipher.decrypt_chunk ⟨sampleCrypto, 0, [], []⟩
          (List.replicate 70 5) 100).1.buffer =
        ([] : List Nat) ++ (List.replicate 70 5).take
          (100 - ([] : List Nat).length) ∧
      ((DobyCipher.decrypt_chunk ⟨sampleCrypto, 0, [], []⟩
          (List.replicate 70 5) 100).1.buffer).length =
        ([] : List Nat).length +
          ((List.replicate 70 5).take (100 - ([] : List Nat).length)).length) ∧
    ((decryptLoop ⟨sampleCrypto, 0, [], []⟩ (List.replicate 70 5) 100).1.buffer =
      (List.replicate 70 5).drop ((List.replicate 70 5).length - HASH_LEN)) ∧
    ((decrypt ⟨sampleCrypto, 0, [], []⟩ (List.replicate 70 5) 100).2 =
      (sampleCrypto.mac ([] ++ (List.replicate 70 5).take
          ((List.replicate 70 5).length - HASH_LEN)) ==
        (List.replicate 70 5).drop ((List.replicate 70 5).length - HASH_LEN))) :=
  C6_residual_is_tag sampleCrypto 0 [] [] (List.replicate 70 5) 100
    (by decide) (Or.inl rfl)

set_option maxRecDepth 10000 in
/-- C6 counterexample: with an empty residual and 40 newly read bytes we
have r + m = 40 ≥ 32, so the claim (with its 32-byte constant) predicts
n = 8 processed bytes and a 32-byte residual; the code processes n = 0
bytes and keeps all 40 bytes as residual — the working constant is 64,
not 32. -/
theorem C6_counterexample :
    (DobyCipher.decrypt_chunk ⟨sampleCrypto, 0, [], []⟩
        (List.replicate 40 7) 100).2.2.1 = 0 ∧
    ((DobyCipher.decrypt_chunk ⟨sampleCrypto, 0, [], []⟩
        (List.replicate 40 7) 100).1.buffer).length = 40 ∧
    (32 : Nat) ≤ 0 + 40 ∧ ¬ ((0 : Nat) = 0 + 40 - 32) := by
  refine ⟨?_, ?_, by decide, by decide⟩
  · rfl
  · rfl

/-- C7 (amended): no chunk-size validation exists at configuration time —
the block-size flag is parsed as a plain integer and whatever value it
parses to, including values of 32 or fewer, is accepted into the
configuration; the decrypt pipeline can therefore be invoked with a
chunk size below 33, in which case (for any size up to the 64-byte tag
length) it emits no plaintext at all and verifies the tag against the
first bytes of the stream. -/
theorem C7_no_blocksize_validation :
    (∀ s n, number s = some n → parseBlockSize s = some n) ∧
    (∀ (c : Crypto) (p : Nat) (t s : List Nat) (block : Nat),
      block ≤ HASH_LEN →
      decrypt ⟨c, p, t, []⟩ s block = ([], c.mac (t ++ []) == s.take block)) := by
  constructor
  · intro s n h
    exact h
  · intro c p t s block hsmall
    exact decrypt_small_block c p t s block hsmall

theorem C7_witness :
    parseBlockSize [49] = some 1 ∧
    decrypt ⟨sampleCrypto, 0, [], []⟩ (List.replicate 80 3) 1 =
      ([], sampleCrypto.mac ([] ++ []) == (List.replicate 80 3).take 1) :=
  ⟨C7_no_blocksize_validation.1 [49] 1 (by decide),
   C7_no_blocksize_validation.2 sampleCrypto 0 [] (List.replicate 80 3) 1
     (by decide)⟩

set_option maxRecDepth 10000 in
/-- C7 counterexample: the configuration accepts a block size of 1 (no
ConfigError), and the decrypt pipeline does run with that chunk size —
returning no plaintext and a failed verification instead of having been
rejected before I/O. -/
theorem C7_counterexample :
    parseBlockSize [49] = some 1 ∧ (1 : Nat) ≤ 32 ∧
    decrypt ⟨sampleCrypto, 0, [], []⟩ (List.replicate 80 3) 1 = ([], false) := by
  refine ⟨by decide, by decide, ?_⟩
  rw [decrypt_small_block sampleCrypto 0 [] (List.replicate 80 3) 1 (by decide)]
  decide

theorem C8_witness :
    selectMode true [1, 2, 3, 4, 5] =
      .encryptStream (([1, 2, 3, 4, 5] : List Nat).take
          (min 4 ([1, 2, 3, 4, 5] : List Nat).length))
        (([1, 2, 3, 4, 5] : List Nat).drop
          (min 4 ([1, 2, 3, 4, 5] : List Nat).length)) ∧
    (([1, 2, 3, 4, 5] : List Nat).take
      (min 4 ([1, 2, 3, 4, 5] : List Nat).length)).length ≤ 4 ∧
    ([1, 2, 3, 4, 5] : List Nat).take
        (min 4 ([1, 2, 3, 4, 5] : List Nat).length) ++
      ([1, 2, 3, 4, 5] : List Nat).drop
        (min 4 ([1, 2, 3, 4, 5] : List Nat).length) = [1, 2, 3, 4, 5] ∧
    encrypt sampleCrypto sampleParams
        (([1, 2, 3, 4, 5] : List Nat).drop
          (min 4 ([1, 2, 3, 4, 5] : List Nat).length)) 100
        (some (([1, 2, 3, 4, 5] : List Nat).take
          (min 4 ([1, 2, 3, 4, 5] : List Nat).length))) =
      MAGIC_BYTES ++ sampleParams.write ++
        ksApply sampleCrypto.ks 0 [1, 2, 3, 4, 5] ++
        sampleCrypto.mac (sampleParams.write ++
          ksApply sampleCrypto.ks 0 [1, 2, 3, 4, 5]) :=
  (C8_mode_selector true [1, 2, 3, 4, 5] sampleCrypto sampleParams 100
    (by decide)).1 (Or.inl rfl)

/-- C9: the authenticator is keyed once and absorbs exactly the
serialized header bytes (cipher id included, magic bytes excluded) at
construction; during encrypt it then absorbs exactly the emitted
ciphertext, each byte once and in emission order (the tag is computed
over header-then-ciphertext, exactly what the container carries after
the magic); during decrypt it absorbs exactly the bytes classified as
confirmed payload, each once and in order, which are also exactly the
bytes emitted as decrypted output. -/
theorem C9_hmac_transcript (c : Crypto) (params : EncryptionParams)
    (input s : List Nat) (block : Nat) (hbE : 0 < block)
    (hbD : HASH_LEN < block) :
    (DobyCipher.new c params).transcript = params.write ∧
    (encryptLoop (DobyCipher.new c params) input block).1.transcript =
      params.write ++ (encryptLoop (DobyCipher.new c params) input block).2 ∧
    encrypt c params input block none =
      MAGIC_BYTES ++ params.write ++
        (encryptLoop (DobyCipher.new c params) input block).2 ++
        c.mac ((encryptLoop (DobyCipher.new c params) input block).1.transcript) ∧
    (decryptLoop (DobyCipher.new c params) s block).1.transcript =
      params.write ++ s.take (s.length - HASH_LEN) ∧
    (decryptLoop (DobyCipher.new c params) s block).2 =
      ksApply c.ks 0 (s.take (s.length - HASH_LEN)) := by
  have hnew : DobyCipher.new c params =
      (⟨c, 0, params.write, []⟩ : DobyCipher) := rfl
  have hE := encryptLoop_eq c 0 params.write [] input block hbE
  have hD := decryptLoop_spec c 0 params.write [] s block hbD (Or.inl rfl)
  refine ⟨rfl, ?_, ?_, ?_, ?_⟩
  · rw [hnew, hE]
  · rw [encrypt_eq_none c params input block hbE, hnew, hE]
  · rw [hnew, hD]
    simp
  · rw [hnew, hD]
    simp

theorem C9_witness :
    (DobyCipher.new sampleCrypto sampleParams).transcript =
      sampleParams.write ∧
    (encryptLoop (DobyCipher.new sampleCrypto sampleParams)
        [1, 2] 100).1.transcript =
      sampleParams.write ++
        (encryptLoop (DobyCipher.new sampleCrypto sampleParams) [1, 2] 100).2 ∧
    encrypt sampleCrypto sampleParams [1, 2] 100 none =
      MAGIC_BYTES ++ sampleParams.write ++
        (encryptLoop (DobyCipher.new sampleCrypto sampleParams) [1, 2] 100).2 ++
        sampleCrypto.mac ((encryptLoop (DobyCipher.new sampleCrypto sampleParams)
          [1, 2] 100).1.transcript) ∧
    (decryptLoop (DobyCipher.new sampleCrypto sampleParams)
        (List.replicate 70 9) 100).1.transcript =
      sampleParams.write ++
        (List.replicate 70 9).take ((List.replicate 70 9).length - HASH_LEN) ∧
    (decryptLoop (DobyCipher.new sampleCrypto sampleParams)
        (List.replicate 70 9) 100).2 =
      ksApply sampleCrypto.ks 0
        ((List.replicate 70 9).take ((List.replicate 70 9).length - HASH_LEN)) :=
  C9_hmac_transcript sampleCrypto sampleParams [1, 2] (List.replicate 70 9) 100
    (by decide) (by decide)

end Doby
